import Mathlib

/-!
Shallow embedding of the rhysormond/piet interpreter.

The embedding follows the Rust sources:
* src/parse/src/codel.rs     : colors, cyclic hue/lightness distance
* src/parse/src/direction.rs : cardinal directions
* src/interpret/src/chooser.rs, src/interpret/src/direction.rs : the codel chooser
* src/interpret/src/state.rs : the interpreter state
* src/interpret/src/command.rs : the 17 stack commands and the dispatch table
* src/parse/src/program.rs, src/parse/src/region.rs : program loading, regions
* src/interpret/src/interpreter.rs : the stepping engine

Conventions used throughout:
* The Rust stack is a `Vec<isize>` pushed/popped at the end; it is embedded as a
  `List Int` whose HEAD is the top of the stack.
* Rust panics (`unwrap` on `None`, `todo!()`, out-of-bounds `Vec` indexing) are
  modelled by `Option`, with `none` for the panicking computation.
* `print!` writes are modelled by an explicit `stdout` field on the state.
* `usize`/`u8` become `Nat`, `isize` becomes `Int` (no claim depends on overflow).
-/

namespace Piet

/-- Coordinates are `(row, col)` pairs, `(0, 0)` the top-left corner. -/
abbrev Coord := Nat × Nat

/-! ## Colors (src/parse/src/codel.rs; the `Color` enum of parse/src/color.rs used
by program.rs has the same three variants) -/

inductive Color where
  | color (hue : Nat) (lightness : Nat)
  | black
  | white
deriving DecidableEq

/-- `HUE_CYCLE_SIZE` in codel.rs. -/
def HUE_CYCLE_SIZE : Nat := 6

/-- `LIGHTNESS_CYCLE_SIZE` in codel.rs. -/
def LIGHTNESS_CYCLE_SIZE : Nat := 3

/-- `Codel::cyclic_distance`: `next.checked_sub(current)` falling back to
`cycle_size - (current - next)`. -/
def cyclicDistance (current next cycleSize : Nat) : Nat :=
  if current ≤ next then next - current else cycleSize - (current - next)

/-- `Codel::compare`: hue/lightness change between two codels, `None` unless both
are `Codel::Color`. -/
def Color.compare : Color → Color → Option (Nat × Nat)
  | .color hue lightness, .color nextHue nextLightness =>
      some (cyclicDistance hue nextHue HUE_CYCLE_SIZE,
            cyclicDistance lightness nextLightness LIGHTNESS_CYCLE_SIZE)
  | _, _ => none

/-! ## Directions (src/parse/src/direction.rs, src/interpret/src/chooser.rs).
`Direction` in parse and `PointerDirection` in interpret are the same
clockwise-ordered enum with the same `next`/`previous`; one type stands for both. -/

inductive Direction where
  | up
  | right
  | down
  | left
deriving DecidableEq

/-- `Direction::next`: the next direction in clockwise order. -/
def Direction.next : Direction → Direction
  | .up => .right
  | .right => .down
  | .down => .left
  | .left => .up

/-- `Direction::previous`: three clockwise steps. -/
def Direction.previous (d : Direction) : Direction :=
  d.next.next.next

/-- `Chooser` in chooser.rs / `ChooserDirection` in interpret/src/direction.rs. -/
inductive Chooser where
  | left
  | right
deriving DecidableEq

/-- `Chooser::next`: the opposite chooser direction. -/
def Chooser.next : Chooser → Chooser
  | .left => .right
  | .right => .left

/-- `PointerDirection::with_chooser` (= `Chooser::choose`): rotate the pointer
direction a quarter turn to the chooser's side. -/
def Direction.withChooser (d : Direction) : Chooser → Direction
  | .left => d.previous
  | .right => d.next

/-! ## Interpreter state (src/interpret/src/state.rs) -/

/-- `State` in state.rs.  The stack's head is the Rust `Vec`'s last element (the
top).  `stdout` models the bytes the commands print. -/
structure State where
  pointer_location : Coord
  pointer_direction : Direction
  chooser_direction : Chooser
  stack : List Int
  termination_counter : Nat
  stdin : List Char
  stdout : List Char
deriving DecidableEq

/-- `State::new`: note that it reverses `stdin` (the buffer is consumed from the
back, like a stack). -/
def State.new (stdin : List Char) : State where
  pointer_location := (0, 0)
  pointer_direction := .right
  chooser_direction := .left
  stack := []
  termination_counter := 0
  stdin := stdin.reverse
  stdout := []

/-! ## Commands (src/interpret/src/command.rs) -/

/-- `push`: pushes the size of the colour block just exited. -/
def push (s : State) (current_region_size : Nat) : State :=
  { s with stack := (current_region_size : Int) :: s.stack }

/-- `pop`: `Vec::pop` discards the top if there is one, else does nothing. -/
def pop (s : State) : State :=
  match s.stack with
  | _ :: rest => { s with stack := rest }
  | [] => s

/-- `add`: only acts when the stack has at least two values. -/
def add (s : State) : State :=
  match s.stack with
  | one :: two :: rest => { s with stack := (one + two) :: rest }
  | _ => s

/-- `subtract`: pushes `second top - top`. -/
def subtract (s : State) : State :=
  match s.stack with
  | one :: two :: rest => { s with stack := (two - one) :: rest }
  | _ => s

/-- `multiply`. -/
def multiply (s : State) : State :=
  match s.stack with
  | one :: two :: rest => { s with stack := (two * one) :: rest }
  | _ => s

/-- `divide`: Rust `/` on `isize` truncates toward zero (`Int.tdiv`); a zero top
value makes the command a no-op. -/
def divide (s : State) : State :=
  match s.stack with
  | one :: two :: rest => if one ≠ 0 then { s with stack := (two.tdiv one) :: rest } else s
  | _ => s

/-- `modulo`: Rust `%` on `isize` is the truncated remainder (`Int.tmod`, sign of
the dividend); a zero top value makes the command a no-op. -/
def modulo (s : State) : State :=
  match s.stack with
  | one :: two :: rest => if one ≠ 0 then { s with stack := (two.tmod one) :: rest } else s
  | _ => s

/-- `not`: replaces a present top value by `1` if it was `0`, else by `0`. -/
def not (s : State) : State :=
  match s.stack with
  | top :: rest => { s with stack := (if top = 0 then (1 : Int) else 0) :: rest }
  | [] => s

/-- `greater`. -/
def greater (s : State) : State :=
  match s.stack with
  | one :: two :: rest => { s with stack := (if two > one then (1 : Int) else 0) :: rest }
  | _ => s

/-- `pointer`: rotates the direction pointer clockwise `top mod 4` steps,
`4 + top % 4` when `top % 4` is negative (Rust `%` = `Int.tmod`). -/
def pointer (s : State) : State :=
  match s.stack with
  | top :: rest =>
      let absolute_steps := top.tmod 4
      let clockwise_steps := if 0 ≤ absolute_steps then absolute_steps else 4 + absolute_steps
      { s with stack := rest,
               pointer_direction := Direction.next^[clockwise_steps.toNat] s.pointer_direction }
  | [] => s

/-- `switch`: toggles the chooser `|top % 2|` times. -/
def switch (s : State) : State :=
  match s.stack with
  | top :: rest =>
      { s with stack := rest,
               chooser_direction := Chooser.next^[(top.tmod 2).natAbs] s.chooser_direction }
  | [] => s

/-- `duplicate`. -/
def duplicate (s : State) : State :=
  match s.stack with
  | top :: rest => { s with stack := top :: top :: rest }
  | [] => s

/-- One iteration of `roll`'s positive-turns loop: pop the top and
`Vec::insert` it at index `final_stack_size - depth` (counted from the bottom;
`insertIdx` counts from the head/top, whence the index conversion).  `none`
models the panics: popping an empty stack, or `insert` past the end. -/
def rollBuryOnce (finalStackSize depth : Nat) (l : List Int) : Option (List Int) :=
  match l with
  | [] => none
  | top :: rest =>
      if finalStackSize - depth ≤ rest.length then
        some (rest.insertIdx (rest.length - (finalStackSize - depth)) top)
      else none

/-- One iteration of `roll`'s negative-turns loop: `Vec::remove` the element at
index `final_stack_size - depth` (from the bottom; converted to an index from
the head as in `rollBuryOnce`) and push it on top.  `none` models the
out-of-bounds `remove` panic. -/
def rollDigOnce (finalStackSize depth : Nat) (l : List Int) : Option (List Int) :=
  if finalStackSize - depth < l.length then
    (l[l.length - 1 - (finalStackSize - depth)]?).map
      (fun bottom => bottom :: l.eraseIdx (l.length - 1 - (finalStackSize - depth)))
  else none

/-- `n`-fold iteration of a possibly-panicking loop body. -/
def iterateOption {α : Type} (f : α → Option α) : Nat → α → Option α
  | 0, a => some a
  | n + 1, a => (f a).bind (iterateOption f n)

/-- `roll`: pops `turns` then `depth` and rolls the remaining stack.  The command
is a no-op (`some` of the unchanged state) unless the stack has two values to
pop, `0 ≤ depth` and `depth ≤ final_stack_size`; `none` models the panics
reachable inside the loops (`depth = 0` with nonzero `turns`). -/
def roll (s : State) : Option State :=
  match s.stack with
  | turns :: depth :: rest =>
      if 0 ≤ depth ∧ depth.toNat ≤ rest.length then
        if 0 ≤ turns then
          (iterateOption (rollBuryOnce rest.length depth.toNat) turns.toNat rest).map
            (fun stack => { s with stack := stack })
        else
          (iterateOption (rollDigOnce rest.length depth.toNat) (-turns).toNat rest).map
            (fun stack => { s with stack := stack })
      else some s
  | _ => some s

/-- `in_number` is `todo!()` in command.rs: it panics unconditionally. -/
def inNumber (_ : State) : Option State := none

/-- `in_char` is `todo!()` in command.rs: it panics unconditionally. -/
def inChar (_ : State) : Option State := none

/-- `out_number`: pops the top value and prints its decimal representation. -/
def outNumber (s : State) : State :=
  match s.stack with
  | top :: rest => { s with stack := rest, stdout := s.stdout ++ (toString top).toList }
  | [] => s

/-- The popped value survives `u32::try_from` and `char::from_u32`: it is a
Unicode scalar value below `u32::MAX`. -/
def isUnicodeScalar (n : Int) : Prop :=
  0 ≤ n ∧ n < 4294967296 ∧ (n.toNat < 0xD800 ∨ (0xE000 ≤ n.toNat ∧ n.toNat < 0x110000))

instance (n : Int) : Decidable (isUnicodeScalar n) := by
  unfold isUnicodeScalar; infer_instance

/-- `out_char`: pops the top value; prints it as a character only when it is a
valid Unicode scalar value.  The pop happens in both cases. -/
def outChar (s : State) : State :=
  match s.stack with
  | top :: rest =>
      if isUnicodeScalar top then
        { s with stack := rest, stdout := s.stdout ++ [Char.ofNat top.toNat] }
      else
        { s with stack := rest }
  | [] => s

/-- `execute` in command.rs: the 6 by 3 dispatch table on
`(hue_change, lightness_change)`.  `none` models a panic inside the dispatched
command (`in_number`/`in_char` are `todo!()`), and the `panic!` of the final
catch-all arm. -/
def execute (s : State) (hue_change lightness_change current_region_size : Nat) :
    Option State :=
  match hue_change, lightness_change with
  | 0, 0 => some s
  | 0, 1 => some (push s current_region_size)
  | 0, 2 => some (pop s)
  | 1, 0 => some (add s)
  | 1, 1 => some (subtract s)
  | 1, 2 => some (multiply s)
  | 2, 0 => some (divide s)
  | 2, 1 => some (modulo s)
  | 2, 2 => some (not s)
  | 3, 0 => some (greater s)
  | 3, 1 => some (pointer s)
  | 3, 2 => some (switch s)
  | 4, 0 => some (duplicate s)
  | 4, 1 => roll s
  | 4, 2 => inNumber s
  | 5, 0 => inChar s
  | 5, 1 => some (outNumber s)
  | 5, 2 => some (outChar s)
  | _, _ => none

/-! ## Regions (src/parse/src/region.rs) -/

/-- `Region` in region.rs: a member set and its cached size. -/
structure Region where
  members : Finset Coord
  size : Nat
deriving DecidableEq

/-- `Region::new`. -/
def Region.new (members : Finset Coord) : Region :=
  { members := members, size := members.card }

/-- `Region::codels_in_col`: the rows of all members in the given column, in
ascending order. -/
def Region.codelsInCol (r : Region) (col : Nat) : List Nat :=
  ((r.members.filter (fun p => p.2 = col)).image Prod.fst).sort (· ≤ ·)

/-- `Region::codels_in_row`: the columns of all members in the given row, in
ascending order. -/
def Region.codelsInRow (r : Region) (row : Nat) : List Nat :=
  ((r.members.filter (fun p => p.1 = row)).image Prod.snd).sort (· ≤ ·)

/-- `Region::edge`: the farthest member along the axis of motion
(`first()`/`last()` of the sorted row/column lists; the `unwrap` is modelled by
`Option`). -/
def Region.edge (r : Region) (start : Coord) (d : Direction) : Option Coord :=
  match d with
  | .up => (r.codelsInCol start.2).head?.map (fun row => (row, start.2))
  | .down => (r.codelsInCol start.2).getLast?.map (fun row => (row, start.2))
  | .left => (r.codelsInRow start.1).head?.map (fun col => (start.1, col))
  | .right => (r.codelsInRow start.1).getLast?.map (fun col => (start.1, col))

/-! ## Program loading (src/parse/src/program.rs) -/

/-- `Program::neighbors`: the 4-neighbours of a point, built exactly like the
source (`checked_sub` guards for up/left, unconditional down/right). -/
def neighborsList (point : Coord) : List Coord :=
  (if 1 ≤ point.1 ∧ 1 ≤ point.2 then [(point.1 - 1, point.2), (point.1, point.2 - 1)]
   else if 1 ≤ point.1 then [(point.1 - 1, point.2)]
   else if 1 ≤ point.2 then [(point.1, point.2 - 1)]
   else []) ++ [(point.1 + 1, point.2), (point.1, point.2 + 1)]

/-- `colors.get(n_row).and_then(|row| row.get(n_col))` in `get_region`. -/
def colorsGet (colors : List (List Color)) (point : Coord) : Option Color :=
  colors[point.1]?.bind (fun row => row[point.2]?)

/-- A finite overapproximation of every coordinate the flood fill can reach:
the start point together with everything one step beyond the grid. -/
def floodUniverse (colors : List (List Color)) (q : Coord) : Finset Coord :=
  insert q ((Finset.range (colors.length + 1)) ×ˢ
    (Finset.range ((colors.map List.length).foldr max 0 + 1)))

theorem le_foldr_max (xs : List Nat) (x : Nat) (hx : x ∈ xs) : x ≤ xs.foldr max 0 := by
  induction xs with
  | nil => cases hx
  | cons a as ih =>
      rcases List.mem_cons.mp hx with rfl | hx
      · exact Nat.le_max_left _ _
      · exact le_trans (ih hx) (Nat.le_max_right _ _)

theorem mem_neighborsList {a n : Coord} (hn : n ∈ neighborsList a) :
    (1 ≤ a.1 ∧ n = (a.1 - 1, a.2)) ∨ (1 ≤ a.2 ∧ n = (a.1, a.2 - 1)) ∨
      n = (a.1 + 1, a.2) ∨ n = (a.1, a.2 + 1) := by
  unfold neighborsList at hn
  rcases List.mem_append.mp hn with h | h
  · by_cases h1 : 1 ≤ a.1 ∧ 1 ≤ a.2
    · rw [if_pos h1] at h
      simp only [List.mem_cons, List.not_mem_nil, or_false] at h
      rcases h with rfl | rfl
      · exact Or.inl ⟨h1.1, rfl⟩
      · exact Or.inr (Or.inl ⟨h1.2, rfl⟩)
    · rw [if_neg h1] at h
      by_cases h2 : 1 ≤ a.1
      · rw [if_pos h2] at h
        rcases List.mem_singleton.mp h with rfl
        exact Or.inl ⟨h2, rfl⟩
      · rw [if_neg h2] at h
        by_cases h3 : 1 ≤ a.2
        · rw [if_pos h3] at h
          rcases List.mem_singleton.mp h with rfl
          exact Or.inr (Or.inl ⟨h3, rfl⟩)
        · rw [if_neg h3] at h
          cases h
  · simp only [List.mem_cons, List.not_mem_nil, or_false] at h
    rcases h with rfl | rfl
    · exact Or.inr (Or.inr (Or.inl rfl))
    · exact Or.inr (Or.inr (Or.inr rfl))

theorem neighbors_mem_floodUniverse (colors : List (List Color)) (q : Coord) :
    ∀ a : Coord, (colorsGet colors a).isSome →
      ∀ n ∈ neighborsList a, n ∈ floodUniverse colors q := by
  intro a ha n hn
  obtain ⟨row, hrow⟩ : ∃ r, colors[a.1]? = some r := by
    rcases h : colors[a.1]? with - | r
    · rw [colorsGet, h] at ha; cases ha
    · exact ⟨r, rfl⟩
  have harow : a.1 < colors.length := (List.getElem?_eq_some_iff.mp hrow).1
  have hacol : a.2 < row.length := by
    rw [colorsGet, hrow, Option.some_bind] at ha
    rcases h : row[a.2]? with - | c
    · rw [h] at ha; cases ha
    · exact (List.getElem?_eq_some_iff.mp h).1
  have hrow_le : row.length ≤ (colors.map List.length).foldr max 0 := by
    apply le_foldr_max
    exact List.mem_map.mpr ⟨row, List.getElem?_eq_some_iff.mp hrow |>.2 ▸
      List.getElem_mem _, rfl⟩
  have hbase : n.1 ≤ colors.length ∧ n.2 ≤ (colors.map List.length).foldr max 0 := by
    have hcol_le : a.2 ≤ (colors.map List.length).foldr max 0 := le_trans hacol.le hrow_le
    rcases mem_neighborsList hn with ⟨h1, rfl⟩ | ⟨h1, rfl⟩ | rfl | rfl
    · exact ⟨by show a.1 - 1 ≤ _; omega, by show a.2 ≤ _; omega⟩
    · exact ⟨by show a.1 ≤ _; omega, by show a.2 - 1 ≤ _; omega⟩
    · exact ⟨by show a.1 + 1 ≤ _; omega, by show a.2 ≤ _; omega⟩
    · exact ⟨by show a.1 ≤ _; omega, by show a.2 + 1 ≤ _; omega⟩
  refine Finset.mem_insert_of_mem (Finset.mem_product.mpr ⟨?_, ?_⟩)
  · exact Finset.mem_range.mpr (by omega)
  · exact Finset.mem_range.mpr (by omega)

/-- The worklist loop of `Program::get_region`: pop a point, and if it has the
region's color, record it as a member and push its not-yet-`seen` neighbours,
marking the popped point as seen (the source inserts the popped point once per
pushed neighbour; inserting it once when any neighbour is pushed is the same
update).  The worklist is a stack popped at the head; pushing the filtered
neighbours in order puts the last one on top, whence `.reverse`.  Termination
is by (unseen coordinates of `U`, seen entries on the worklist, worklist
length), lexicographically. -/
def floodLoop (colors : List (List Color)) (color : Color) (U : Finset Coord)
    (hU : ∀ a : Coord, (colorsGet colors a).isSome → ∀ n ∈ neighborsList a, n ∈ U)
    (members seen : Finset Coord) (wl : List Coord)
    (hwl : ∀ x ∈ wl, x ∈ U) : Finset Coord :=
  match wl with
  | [] => members
  | y :: rest =>
      match hy : colorsGet colors y with
      | some c =>
          if c = color then
            floodLoop colors color U hU (insert y members)
              (if ((neighborsList y).filter (fun n => n ∉ seen)).isEmpty then seen
               else insert y seen)
              (((neighborsList y).filter (fun n => n ∉ seen)).reverse ++ rest)
              (by
                intro x hx
                rcases List.mem_append.mp hx with hx | hx
                · exact hU y (by rw [hy]; rfl) x
                    (List.mem_of_mem_filter (List.mem_reverse.mp hx))
                · exact hwl x (List.mem_cons_of_mem _ hx))
          else
            floodLoop colors color U hU members seen rest
              (fun x hx => hwl x (List.mem_cons_of_mem _ hx))
      | none =>
          floodLoop colors color U hU members seen rest
            (fun x hx => hwl x (List.mem_cons_of_mem _ hx))
termination_by
  ((U \ seen).card, wl.countP (fun x => decide (x ∈ seen)), wl.length)
decreasing_by
  · show Prod.Lex _ _ _ _
    split
    · -- no neighbour pushed: the worklist loses its head, `seen` is unchanged
      rename_i hempty
      rw [List.isEmpty_iff] at hempty
      rw [hempty]
      refine Prod.lex_def.mpr (Or.inr ⟨rfl, Prod.lex_def.mpr ?_⟩)
      simp only [List.reverse_nil, List.nil_append, List.countP_cons]
      by_cases hys : y ∈ seen
      · exact Or.inl (by simp [hys])
      · exact Or.inr ⟨by simp [hys], by simp⟩
    · -- at least one neighbour pushed: `y` joins `seen`
      by_cases hys : y ∈ seen
      · rw [Finset.insert_eq_self.mpr hys]
        refine Prod.lex_def.mpr (Or.inr ⟨rfl, Prod.lex_def.mpr (Or.inl ?_)⟩)
        rw [List.countP_append, List.countP_cons]
        have hzero : ((neighborsList y).filter (fun n => n ∉ seen)).reverse.countP
            (fun x => decide (x ∈ seen)) = 0 := by
          rw [List.countP_eq_zero]
          intro x hx
          have := List.of_mem_filter (List.mem_reverse.mp hx)
          simpa using this
        rw [hzero]
        simp [hys]
      · refine Prod.lex_def.mpr (Or.inl ?_)
        apply Finset.card_lt_card
        refine ⟨Finset.sdiff_subset_sdiff (Finset.Subset.refl U)
          (Finset.subset_insert y seen), fun hsub => ?_⟩
        have hyU : y ∈ U := hwl y (List.mem_cons_self y rest)
        have hy2 := hsub (Finset.mem_sdiff.mpr ⟨hyU, hys⟩)
        exact (Finset.mem_sdiff.mp hy2).2 (Finset.mem_insert_self y seen)
  · show Prod.Lex _ _ _ _
    refine Prod.lex_def.mpr (Or.inr ⟨rfl, Prod.lex_def.mpr ?_⟩)
    rw [List.countP_cons]
    by_cases hys : y ∈ seen
    · exact Or.inl (by simp [hys])
    · exact Or.inr ⟨by simp [hys], by simp⟩
  · show Prod.Lex _ _ _ _
    refine Prod.lex_def.mpr (Or.inr ⟨rfl, Prod.lex_def.mpr ?_⟩)
    rw [List.countP_cons]
    by_cases hys : y ∈ seen
    · exact Or.inl (by simp [hys])
    · exact Or.inr ⟨by simp [hys], by simp⟩

/-- `Program::get_region`: flood fill from `point` with
`colors[point.1][point.2]` as the target color (the direct indexing panics out
of bounds, modelled by `none`); `members` starts empty, `seen` and the worklist
start as `{point}` and `[point]`. -/
def getRegion (colors : List (List Color)) (point : Coord) : Option Region :=
  match colorsGet colors point with
  | some color =>
      some (Region.new (floodLoop colors color (floodUniverse colors point)
        (neighbors_mem_floodUniverse colors point) ∅ {point} [point]
        (fun x hx => by
          rcases List.mem_singleton.mp hx with rfl
          exact Finset.mem_insert_self x _)))
  | none => none

/-- The fold inside `Program::get_codels`, over the row-major list of
locations: each location gets the cached region if the `regions` map has one,
else a fresh `get_region` result, which is then recorded for all its members.
The emitted list pairs each location with its region (`none` only for an
out-of-bounds `get_region`, which cannot happen for in-bounds locations). -/
def getCodelsAux (colors : List (List Color)) :
    List Coord → (Coord → Option Region) → List (Coord × Option Region)
  | [], _ => []
  | l :: rest, regions =>
      match regions l with
      | some region => (l, some region) :: getCodelsAux colors rest regions
      | none =>
          match getRegion colors l with
          | some region =>
              (l, some region) :: getCodelsAux colors rest
                (fun p => if p ∈ region.members then some region else regions p)
          | none => (l, none) :: getCodelsAux colors rest regions

/-- The row-major traversal order of `get_codels`. -/
def rowMajorCoords (rows cols : Nat) : List Coord :=
  ((List.range rows).map (fun row => (List.range cols).map (fun col => (row, col)))).flatten

/-! ## The program (src/parse/src/program.rs) -/

/-- `Program`: the color grid with its dimensions.  (The Rust struct stores
`points: Vec<Vec<Codel>>`; colors and regions are recovered through
`Program.colorAt` / `Program.regionAt`.) -/
structure Program where
  colors : List (List Color)
  rows : Nat
  cols : Nat

/-- `Program::color_at` (via `codel_at`): direct grid indexing; callers only use
in-bounds points, the default is never observed. -/
def Program.colorAt (p : Program) (point : Coord) : Color :=
  (p.colors.getD point.1 []).getD point.2 .black

/-- `Program::get_codels` as the location-to-region table of `points`. -/
def Program.points (p : Program) : List (Coord × Option Region) :=
  getCodelsAux p.colors (rowMajorCoords p.rows p.cols) (fun _ => none)

/-- `Program::region_at`: look the point up in the `points` grid. -/
def Program.regionAt (p : Program) (point : Coord) : Option Region :=
  ((Program.points p).find? (fun e => decide (e.1 = point))).bind (fun e => e.2)

/-- `Program::next_point` (named `maybe_next_codel` by the interpreter): the
neighbour of `start` in the given direction together with its color, `none` at
the grid edge (`checked_sub` for up/left, the `rows`/`cols` bounds for
down/right). -/
def Program.nextPoint (p : Program) (start : Coord) (d : Direction) :
    Option (Coord × Color) :=
  (match d with
   | .up => if 1 ≤ start.1 then some (start.1 - 1, start.2) else none
   | .down => if start.1 + 1 < p.rows then some (start.1 + 1, start.2) else none
   | .left => if 1 ≤ start.2 then some (start.1, start.2 - 1) else none
   | .right => if start.2 + 1 < p.cols then some (start.1, start.2 + 1) else none
  ).map (fun next => (next, p.colorAt next))

/-! ## The stepping engine (src/interpret/src/interpreter.rs) -/

/-- How far a walk in direction `d` can still go from `c`: the walk's
termination measure. -/
def walkMeasure (p : Program) (d : Direction) (c : Coord) : Nat :=
  match d with
  | .up => c.1
  | .down => p.rows - c.1
  | .left => c.2
  | .right => p.cols - c.2

/-- `Interpreter::edge_coordinate`: walk from `start` in direction `d` while the
next codel exists and has the same color, and return the last such coordinate.
(The source compares against the color of the original `start`; every step
preserves that color, so comparing against the current coordinate's color walks
the same cells.) -/
def edgeCoordinate (p : Program) (start : Coord) (d : Direction) : Coord :=
  match h : p.nextPoint start d with
  | some (next, nextColor) =>
      if nextColor = p.colorAt start then edgeCoordinate p next d else start
  | none => start
termination_by walkMeasure p d start
decreasing_by
  rcases start with ⟨row, col⟩
  cases d <;> simp only [Program.nextPoint] at h <;> split at h <;>
    simp_all only [Option.map_some', Option.map_none', Option.some.injEq,
      Prod.mk.injEq, reduceCtorEq, walkMeasure] <;>
    obtain ⟨⟨rfl, -⟩, -⟩ := h <;> omega

/-- `Interpreter::disjoint_edge_coordinate`: the source just delegates to
`edge_coordinate` and carries a TODO that disjoint region segments are not
supported. -/
def disjointEdgeCoordinate (p : Program) (start : Coord) (d : Direction) : Coord :=
  edgeCoordinate p start d

/-- `Interpreter::next_coordinates`: the two block-edge hops, then the attempt
to step beyond the second edge — blocked by the grid edge or black, sliding
along white, or entering a colored codel. -/
def nextCoordinates (p : Program) (s : State) : Option (Coord × Color × Bool) :=
  let first_edge := disjointEdgeCoordinate p s.pointer_location s.pointer_direction
  let second_edge := disjointEdgeCoordinate p first_edge
      (s.pointer_direction.withChooser s.chooser_direction)
  match p.nextPoint second_edge s.pointer_direction with
  | some (next_location, next_codel) =>
      match next_codel with
      | .black => none
      | .white =>
          let white_edge := edgeCoordinate p next_location s.pointer_direction
          match p.nextPoint white_edge s.pointer_direction with
          | some (color_location, color_codel) =>
              if color_codel ≠ Color.white ∧ color_codel ≠ Color.black then
                some (color_location, color_codel, true)
              else some (white_edge, Color.white, true)
          | none => some (white_edge, Color.white, true)
      | .color hue lightness => some (next_location, .color hue lightness, false)
  | none => none

/-- The failure branch of `Interpreter::advance`: even attempts advance the
chooser direction, odd attempts the pointer direction, and the termination
counter is incremented. -/
def stallStep (s : State) : State :=
  if s.termination_counter % 2 = 0 then
    { s with chooser_direction := s.chooser_direction.next,
             termination_counter := s.termination_counter + 1 }
  else
    { s with pointer_direction := s.pointer_direction.next,
             termination_counter := s.termination_counter + 1 }

/-- `Interpreter::advance`: on a successful `next_coordinates`, compute the
hue/lightness change — `(0, 0)` when in or through white, otherwise
`compare(...).unwrap()` (the `unwrap` panic is `none`) — dispatch it, move the
pointer and reset the counter; on failure, `stallStep`. -/
def advance (p : Program) (s : State) : Option State :=
  match nextCoordinates p s with
  | some (next_location, _next_codel, passed_white) =>
      match (if p.colorAt s.pointer_location = Color.white ∨ passed_white
             then some ((0 : Nat), (0 : Nat))
             else (p.colorAt s.pointer_location).compare _next_codel) with
      | none => none
      | some (delta_hue, delta_lightness) =>
          (execute s delta_hue delta_lightness
              (match p.regionAt s.pointer_location with
               | some r => r.size
               | none => 0)).map
            (fun s2 => { s2 with pointer_location := next_location,
                                 termination_counter := 0 })
  | none => some (stallStep s)

/-- `Interpreter::run` iterates `advance` while `termination_counter < 8`; its
reachable states. -/
inductive Reachable (p : Program) (stdin : List Char) : State → Prop where
  | init : Reachable p stdin (State.new stdin)
  | step {s s2 : State} : Reachable p stdin s → s.termination_counter < 8 →
      advance p s = some s2 → Reachable p stdin s2

/-- Same-color 4-connectivity: a path of neighbour steps through codels of the
given color (the relation underlying the flood fill's specification). -/
def ReachColor (colors : List (List Color)) (color : Color) : Coord → Coord → Prop :=
  Relation.ReflTransGen (fun a b => b ∈ neighborsList a ∧ colorsGet colors b = some color)

/-- 4-connectivity inside a fixed set of coordinates. -/
def ConnectedIn (S : Finset Coord) : Coord → Coord → Prop :=
  Relation.ReflTransGen (fun x y => y ∈ S ∧ y ∈ neighborsList x)

/-! ## Helper lemmas for `roll` -/

theorem insertIdx_getElem_eraseIdx {α : Type} :
    ∀ (l : List α) (k : Nat) (x : α), l[k]? = some x →
      (l.eraseIdx k).insertIdx k x = l
  | a :: _, 0, x, h => by
      simp only [List.getElem?_cons_zero, Option.some.injEq] at h
      simp [List.eraseIdx, List.insertIdx_zero, h]
  | a :: as, k + 1, x, h => by
      simp only [List.getElem?_cons_succ] at h
      simp only [List.eraseIdx_cons_succ, List.insertIdx_succ_cons]
      exact congrArg (a :: ·) (insertIdx_getElem_eraseIdx as k x h)
  | [], _, _, h => by simp at h

/-- A positive-turns iteration succeeds on a stack of the loop's fixed size and
is undone by one negative-turns iteration. -/
theorem rollBuryOnce_some (L d : Nat) (hd : 1 ≤ d) (hdL : d ≤ L)
    (l : List Int) (hl : l.length = L) :
    ∃ m, rollBuryOnce L d l = some m ∧ m.length = L ∧ rollDigOnce L d m = some l := by
  match l, hl with
  | [], hl => simp only [List.length_nil] at hl; omega
  | x :: xs, hl =>
    simp only [List.length_cons] at hl
    have hk : xs.length - (L - d) = d - 1 := by omega
    have hguard : L - d ≤ xs.length := by omega
    have hkle : d - 1 ≤ xs.length := by omega
    have hlm : (xs.insertIdx (d - 1) x).length = L := by
      rw [List.length_insertIdx _ _ hkle]; omega
    refine ⟨xs.insertIdx (d - 1) x, ?_, hlm, ?_⟩
    · rw [rollBuryOnce, if_pos hguard, hk]
    · have hidx : (xs.insertIdx (d - 1) x).length - 1 - (L - d) = d - 1 := by
        rw [hlm]; omega
      have hdlt : d - 1 < (xs.insertIdx (d - 1) x).length := by rw [hlm]; omega
      have hget : (xs.insertIdx (d - 1) x)[d - 1]? = some x := by
        rw [List.getElem?_eq_getElem hdlt]
        exact congrArg some (List.getElem_insertIdx_self xs x (d - 1) hkle)
      rw [rollDigOnce, if_pos (by rw [hlm]; omega), hidx, hget, Option.map_some',
        List.eraseIdx_insertIdx]

/-- A negative-turns iteration succeeds on a stack of the loop's fixed size and
is undone by one positive-turns iteration. -/
theorem rollDigOnce_some (L d : Nat) (hd : 1 ≤ d) (hdL : d ≤ L)
    (l : List Int) (hl : l.length = L) :
    ∃ m, rollDigOnce L d l = some m ∧ m.length = L ∧ rollBuryOnce L d m = some l := by
  have h1 : l.length - 1 - (L - d) < l.length := by omega
  have h2 : L - d < l.length := by omega
  have hget : l[l.length - 1 - (L - d)]? = some l[l.length - 1 - (L - d)] :=
    List.getElem?_eq_getElem h1
  have herase : (l.eraseIdx (l.length - 1 - (L - d))).length = L - 1 := by
    rw [List.length_eraseIdx_of_lt h1]; omega
  refine ⟨l[l.length - 1 - (L - d)] :: l.eraseIdx (l.length - 1 - (L - d)), ?_, ?_, ?_⟩
  · rw [rollDigOnce, if_pos h2, hget, Option.map_some']
  · simp only [List.length_cons, herase]; omega
  · have hidx : (l.eraseIdx (l.length - 1 - (L - d))).length - (L - d) =
        l.length - 1 - (L - d) := by rw [herase]; omega
    rw [rollBuryOnce, if_pos (by rw [herase]; omega), hidx,
      insertIdx_getElem_eraseIdx l _ _ hget]

theorem iterateOption_succ_comm {α : Type} (f : α → Option α) (n : Nat) (a : α) :
    iterateOption f (n + 1) a = (iterateOption f n a).bind f := by
  induction n generalizing a with
  | zero => cases h : f a <;> simp [iterateOption, h]
  | succ n ih =>
      show (f a).bind (iterateOption f (n + 1)) = ((f a).bind (iterateOption f n)).bind f
      cases h : f a with
      | none => rfl
      | some b => rw [Option.some_bind, Option.some_bind, ih b]

/-- If every `f` step succeeds on the invariant set and is undone by one `g`
step, then `n` iterations of `f` succeed and are undone by `n` iterations of
`g`. -/
theorem iterateOption_inverse {α : Type} (f g : α → Option α) (P : α → Prop)
    (h : ∀ a, P a → ∃ b, f a = some b ∧ P b ∧ g b = some a) :
    ∀ n (a : α), P a →
      ∃ b, iterateOption f n a = some b ∧ P b ∧ iterateOption g n b = some a := by
  intro n
  induction n with
  | zero => exact fun a ha => ⟨a, rfl, ha, rfl⟩
  | succ n ih =>
      intro a ha
      obtain ⟨a₁, hfa, ha₁, hga⟩ := h a ha
      obtain ⟨b, hfn, hb, hgn⟩ := ih a₁ ha₁
      refine ⟨b, ?_, hb, ?_⟩
      · show (f a).bind (iterateOption f n) = some b
        rw [hfa, Option.some_bind, hfn]
      · rw [iterateOption_succ_comm, hgn, Option.some_bind, hga]


/-! ## Lemmas about the stepping engine -/

theorem nextPoint_color {p : Program} {start : Coord} {d : Direction} {next : Coord}
    {c : Color} (h : p.nextPoint start d = some (next, c)) : c = p.colorAt next := by
  unfold Program.nextPoint at h
  rw [Option.map_eq_some'] at h
  obtain ⟨a, -, ha⟩ := h
  cases ha
  rfl

theorem edgeCoordinate_colorAt (p : Program) :
    ∀ (start : Coord) (d : Direction),
      p.colorAt (edgeCoordinate p start d) = p.colorAt start := by
  refine edgeCoordinate.induct p
    (fun start d => p.colorAt (edgeCoordinate p start d) = p.colorAt start) ?_ ?_ ?_
  · intro start d next h ih
    rw [edgeCoordinate, h]
    simpa using ih.trans (nextPoint_color h).symm
  · intro start d next nextColor h hne
    rw [edgeCoordinate, h]
    simp [hne]
  · intro start d h
    rw [edgeCoordinate, h]

theorem stallStep_pointer_location (s : State) :
    (stallStep s).pointer_location = s.pointer_location := by
  unfold stallStep
  split <;> rfl

theorem stallStep_termination_counter (s : State) :
    (stallStep s).termination_counter = s.termination_counter + 1 := by
  unfold stallStep
  split <;> rfl

/-- Inversion for a successful `advance`: either the step was blocked and the
state only went through `stallStep`, or `next_coordinates` produced the new
pointer location and the counter was reset. -/
theorem advance_some_cases (p : Program) {s s2 : State} (h : advance p s = some s2) :
    (nextCoordinates p s = none ∧ s2 = stallStep s) ∨
    (∃ loc c pw, nextCoordinates p s = some (loc, c, pw) ∧
      s2.pointer_location = loc ∧ s2.termination_counter = 0) := by
  unfold advance at h
  rcases hnc : nextCoordinates p s with - | ⟨loc, c, pw⟩
  · rw [hnc] at h
    exact Or.inl ⟨rfl, (Option.some.inj h).symm⟩
  · rw [hnc] at h
    refine Or.inr ⟨loc, c, pw, rfl, ?_⟩
    rcases hd : (if p.colorAt s.pointer_location = Color.white ∨ pw = true
        then some ((0 : Nat), (0 : Nat))
        else (p.colorAt s.pointer_location).compare c) with - | ⟨dh, dl⟩
    · simp only [hd] at h
      exact absurd h (by simp)
    · simp only [hd] at h
      rcases hex : execute s dh dl
          (match p.regionAt s.pointer_location with
           | some r => r.size
           | none => 0) with - | s3
      · rw [hex] at h
        cases h
      · rw [hex, Option.map_some'] at h
        rw [← Option.some.inj h]
        exact ⟨rfl, rfl⟩

/-- The new location produced by `next_coordinates` never carries `Black`, and
when no white was passed it is a `Color` codel; the returned color is the color
at the returned location. -/
theorem nextCoordinates_some_color {p : Program} {s : State} {loc : Coord} {c : Color}
    {pw : Bool} (h : nextCoordinates p s = some (loc, c, pw)) :
    c = p.colorAt loc ∧ c ≠ Color.black ∧
      (pw = false → ∃ hue lightness, c = Color.color hue lightness) := by
  simp only [nextCoordinates] at h
  split at h
  · split at h
    · exact absurd h (by simp)
    · split at h
      · split at h
        · -- slid through white into a colored codel
          rename_i nl junk1 hn junk2 cl cc hw hcc
          obtain ⟨rfl, rfl, rfl⟩ : cl = loc ∧ cc = c ∧ true = pw := by
            have := Option.some.inj h
            exact ⟨congrArg Prod.fst this, congrArg (fun t => t.2.1) this,
              congrArg (fun t => t.2.2) this⟩
          exact ⟨nextPoint_color hw, hcc.2, by simp⟩
        · -- slid through white and stopped at its edge
          rename_i nl junk1 hn junk2 cl cc hw hcc
          obtain ⟨rfl, rfl, rfl⟩ :
              edgeCoordinate p nl s.pointer_direction = loc ∧ Color.white = c ∧
                true = pw := by
            have := Option.some.inj h
            exact ⟨congrArg Prod.fst this, congrArg (fun t => t.2.1) this,
              congrArg (fun t => t.2.2) this⟩
          refine ⟨?_, by simp, by simp⟩
          rw [edgeCoordinate_colorAt]
          exact nextPoint_color hn
      · -- slid through white, nothing beyond its edge
        rename_i nl junk1 hn junk2 hw
        obtain ⟨rfl, rfl, rfl⟩ :
            edgeCoordinate p nl s.pointer_direction = loc ∧ Color.white = c ∧
              true = pw := by
          have := Option.some.inj h
          exact ⟨congrArg Prod.fst this, congrArg (fun t => t.2.1) this,
            congrArg (fun t => t.2.2) this⟩
        refine ⟨?_, by simp, by simp⟩
        rw [edgeCoordinate_colorAt]
        exact nextPoint_color hn
    · -- stepped directly into a colored codel
      rename_i nl junk1 hue lightness hn
      obtain ⟨rfl, rfl, rfl⟩ : nl = loc ∧ Color.color hue lightness = c ∧ false = pw := by
        have := Option.some.inj h
        exact ⟨congrArg Prod.fst this, congrArg (fun t => t.2.1) this,
          congrArg (fun t => t.2.2) this⟩
      exact ⟨nextPoint_color hn, by simp, fun _ => ⟨hue, lightness, rfl⟩⟩
  · exact absurd h (by simp)

/-- While running, the pointer never rests on a Black codel — provided the
top-left codel, where execution starts, is not Black. -/
theorem reachable_pointer_not_black (p : Program) (stdin : List Char)
    (h0 : p.colorAt (0, 0) ≠ Color.black) :
    ∀ s : State, Reachable p stdin s → p.colorAt s.pointer_location ≠ Color.black := by
  intro s hs
  induction hs with
  | init => exact h0
  | step hr hlt hadv ih =>
      rcases advance_some_cases p hadv with ⟨-, rfl⟩ | ⟨loc, c, pw, hnc, hloc, -⟩
      · rw [stallStep_pointer_location]
        exact ih
      · rw [hloc]
        obtain ⟨hc, hcb, -⟩ := nextCoordinates_some_color hnc
        rw [← hc]
        exact hcb


/-! ## Lemmas about regions and the flood fill -/

theorem mem_neighborsList_down (p : Coord) : (p.1 + 1, p.2) ∈ neighborsList p :=
  List.mem_append.mpr (Or.inr (by simp))

theorem mem_neighborsList_right (p : Coord) : (p.1, p.2 + 1) ∈ neighborsList p :=
  List.mem_append.mpr (Or.inr (by simp))

theorem mem_neighborsList_up (p : Coord) (h : 1 ≤ p.1) :
    (p.1 - 1, p.2) ∈ neighborsList p := by
  refine List.mem_append.mpr (Or.inl ?_)
  by_cases h2 : 1 ≤ p.2
  · rw [if_pos ⟨h, h2⟩]
    simp
  · rw [if_neg (fun hc => h2 hc.2), if_pos h]
    simp

theorem mem_neighborsList_left (p : Coord) (h : 1 ≤ p.2) :
    (p.1, p.2 - 1) ∈ neighborsList p := by
  refine List.mem_append.mpr (Or.inl ?_)
  by_cases h1 : 1 ≤ p.1
  · rw [if_pos ⟨h1, h⟩]
    simp
  · rw [if_neg (fun hc => h1 hc.1), if_neg h1, if_pos h]
    simp

theorem not_mem_neighborsList_self (p : Coord) : p ∉ neighborsList p := by
  intro h
  rcases mem_neighborsList h with ⟨h1, he⟩ | ⟨h1, he⟩ | he | he <;>
    · have h1 := congrArg Prod.fst he
      have h2 := congrArg Prod.snd he
      simp only at h1 h2
      omega

theorem neighborsList_symm {a b : Coord} (h : b ∈ neighborsList a) :
    a ∈ neighborsList b := by
  rcases mem_neighborsList h with ⟨h1, rfl⟩ | ⟨h1, rfl⟩ | rfl | rfl
  · have hx : ((a.1 - 1 : Nat) + 1, a.2) ∈ neighborsList ((a.1 - 1 : Nat), a.2) :=
      mem_neighborsList_down _
    have he : ((a.1 - 1 : Nat) + 1, a.2) = a := by
      have h2 : a.1 - 1 + 1 = a.1 := by omega
      rw [h2]
    rwa [he] at hx
  · have hx : (a.1, (a.2 - 1 : Nat) + 1) ∈ neighborsList (a.1, (a.2 - 1 : Nat)) :=
      mem_neighborsList_right _
    have he : (a.1, (a.2 - 1 : Nat) + 1) = a := by
      have h2 : a.2 - 1 + 1 = a.2 := by omega
      rw [h2]
    rwa [he] at hx
  · have hx : ((a.1 + 1 : Nat) - 1, a.2) ∈ neighborsList ((a.1 + 1 : Nat), a.2) :=
      mem_neighborsList_up _ (by omega)
    have he : ((a.1 + 1 : Nat) - 1, a.2) = a := by
      have h2 : a.1 + 1 - 1 = a.1 := by omega
      rw [h2]
    rwa [he] at hx
  · have hx : (a.1, (a.2 + 1 : Nat) - 1) ∈ neighborsList (a.1, (a.2 + 1 : Nat)) :=
      mem_neighborsList_left _ (by omega)
    have he : (a.1, (a.2 + 1 : Nat) - 1) = a := by
      have h2 : a.2 + 1 - 1 = a.2 := by omega
      rw [h2]
    rwa [he] at hx

/-- Every point a same-color path can reach lies in any set that contains the
start and is closed under same-color adjacency. -/
theorem reachColor_subset {colors : List (List Color)} {color : Color} {q : Coord}
    {S : Finset Coord} (hqS : q ∈ S)
    (hclosed : ∀ x ∈ S, ∀ y ∈ neighborsList x,
      colorsGet colors y = some color → y ∈ S) :
    ∀ m, ReachColor colors color q m → m ∈ S := by
  intro m h
  induction h with
  | refl => exact hqS
  | tail hxy hstep ih => exact hclosed _ ih _ hstep.1 hstep.2

theorem connectedIn_of_reachColor {colors : List (List Color)} {color : Color}
    {q : Coord} {S : Finset Coord} (hqS : q ∈ S)
    (hclosed : ∀ x ∈ S, ∀ y ∈ neighborsList x,
      colorsGet colors y = some color → y ∈ S) :
    ∀ m, ReachColor colors color q m → ConnectedIn S q m := by
  intro m h
  induction h with
  | refl => exact Relation.ReflTransGen.refl
  | tail hxy hstep ih =>
      exact Relation.ReflTransGen.tail ih
        ⟨hclosed _ (reachColor_subset hqS hclosed _ hxy) _ hstep.1 hstep.2, hstep.1⟩

theorem connectedIn_mem {S : Finset Coord} {a b : Coord} (haS : a ∈ S)
    (h : ConnectedIn S a b) : b ∈ S := by
  induction h with
  | refl => exact haS
  | tail _ hstep _ => exact hstep.1

theorem connectedIn_symm {S : Finset Coord} {a b : Coord} (haS : a ∈ S)
    (h : ConnectedIn S a b) : ConnectedIn S b a := by
  induction h with
  | refl => exact Relation.ReflTransGen.refl
  | tail hxy hstep ih =>
      refine Relation.ReflTransGen.trans (Relation.ReflTransGen.single ?_) ih
      exact ⟨connectedIn_mem haS hxy, neighborsList_symm hstep.2⟩



/-- Unfolding `floodLoop` at a worklist head whose color lookup succeeds. -/
theorem floodLoop_cons_some (colors : List (List Color)) (color : Color) (U : Finset Coord)
    (hU : ∀ a : Coord, (colorsGet colors a).isSome = true → ∀ n ∈ neighborsList a, n ∈ U)
    (members seen : Finset Coord) (y : Coord) (rest : List Coord)
    (hwl : ∀ x ∈ y :: rest, x ∈ U) (c : Color) (hy : colorsGet colors y = some c) :
    floodLoop colors color U hU members seen (y :: rest) hwl =
      if c = color then
        floodLoop colors color U hU (insert y members)
          (if ((neighborsList y).filter (fun n => n ∉ seen)).isEmpty then seen
           else insert y seen)
          (((neighborsList y).filter (fun n => n ∉ seen)).reverse ++ rest)
          (fun x hx => by
            rcases List.mem_append.mp hx with hx | hx
            · exact hU y (by rw [hy]; rfl) x
                (List.mem_of_mem_filter (List.mem_reverse.mp hx))
            · exact hwl x (List.mem_cons_of_mem _ hx))
      else floodLoop colors color U hU members seen rest
          (fun x hx => hwl x (List.mem_cons_of_mem _ hx)) := by
  conv_lhs => rw [floodLoop.eq_def]
  split
  · rename_i hnil hheq
    exact absurd hnil (by simp)
  · rename_i wl2 hwl2 y2 rest2 hwl3 hcons hheq
    obtain ⟨rfl, rfl⟩ : y2 = y ∧ rest2 = rest := by
      have h1 := congrArg List.head? hcons
      have h2 := congrArg List.tail hcons
      simp only [List.head?_cons, Option.some.injEq, List.tail_cons] at h1 h2
      exact ⟨h1.symm, h2.symm⟩
    split
    · rename_i c3 hy3
      rw [hy3] at hy
      cases Option.some.inj hy
      rfl
    · rename_i hy3
      rw [hy3] at hy
      cases hy

/-- Unfolding `floodLoop` at a worklist head that is off the grid. -/
theorem floodLoop_cons_none (colors : List (List Color)) (color : Color) (U : Finset Coord)
    (hU : ∀ a : Coord, (colorsGet colors a).isSome = true → ∀ n ∈ neighborsList a, n ∈ U)
    (members seen : Finset Coord) (y : Coord) (rest : List Coord)
    (hwl : ∀ x ∈ y :: rest, x ∈ U) (hy : colorsGet colors y = none) :
    floodLoop colors color U hU members seen (y :: rest) hwl =
      floodLoop colors color U hU members seen rest
        (fun x hx => hwl x (List.mem_cons_of_mem _ hx)) := by
  conv_lhs => rw [floodLoop.eq_def]
  split
  · rename_i hnil hheq
    exact absurd hnil (by simp)
  · rename_i wl2 hwl2 y2 rest2 hwl3 hcons hheq
    obtain ⟨rfl, rfl⟩ : y2 = y ∧ rest2 = rest := by
      have h1 := congrArg List.head? hcons
      have h2 := congrArg List.tail hcons
      simp only [List.head?_cons, Option.some.injEq, List.tail_cons] at h1 h2
      exact ⟨h1.symm, h2.symm⟩
    split
    · rename_i c3 hy3
      rw [hy3] at hy
      cases hy
    · rfl

/-- The flood-fill worklist invariants: every recorded member is same-colored
and reachable from `q`, `seen` only ever holds members (or `q` itself), `q` is
either recorded or still pending, and same-colored neighbours of members are
recorded or pending.  They entail that the final member set contains `q`, is
same-colored, reachable from `q`, and closed under same-colored adjacency. -/
theorem floodLoop_spec (colors : List (List Color)) (color : Color) (U : Finset Coord)
    (hU : ∀ a : Coord, (colorsGet colors a).isSome = true → ∀ n ∈ neighborsList a, n ∈ U)
    (q : Coord) (hq : colorsGet colors q = some color) :
    ∀ (members seen : Finset Coord) (wl : List Coord) (hwl : ∀ x ∈ wl, x ∈ U),
      (∀ m ∈ members, ReachColor colors color q m ∧ colorsGet colors m = some color) →
      (∀ x ∈ wl, colorsGet colors x = some color → ReachColor colors color q x) →
      (∀ x ∈ seen, x ∈ members ∨ x = q) →
      (q ∈ members ∨ q ∈ wl) →
      (∀ m ∈ members, ∀ n ∈ neighborsList m, colorsGet colors n = some color →
        n ∈ members ∨ n ∈ wl) →
      (∀ m ∈ floodLoop colors color U hU members seen wl hwl,
        ReachColor colors color q m ∧ colorsGet colors m = some color) ∧
      q ∈ floodLoop colors color U hU members seen wl hwl ∧
      (∀ m ∈ floodLoop colors color U hU members seen wl hwl,
        ∀ n ∈ neighborsList m, colorsGet colors n = some color →
          n ∈ floodLoop colors color U hU members seen wl hwl) ∧
      members ⊆ floodLoop colors color U hU members seen wl hwl := by
  refine floodLoop.induct colors color U hU
    (fun members seen wl hwl =>
      (∀ m ∈ members, ReachColor colors color q m ∧ colorsGet colors m = some color) →
      (∀ x ∈ wl, colorsGet colors x = some color → ReachColor colors color q x) →
      (∀ x ∈ seen, x ∈ members ∨ x = q) →
      (q ∈ members ∨ q ∈ wl) →
      (∀ m ∈ members, ∀ n ∈ neighborsList m, colorsGet colors n = some color →
        n ∈ members ∨ n ∈ wl) →
      (∀ m ∈ floodLoop colors color U hU members seen wl hwl,
        ReachColor colors color q m ∧ colorsGet colors m = some color) ∧
      q ∈ floodLoop colors color U hU members seen wl hwl ∧
      (∀ m ∈ floodLoop colors color U hU members seen wl hwl,
        ∀ n ∈ neighborsList m, colorsGet colors n = some color →
          n ∈ floodLoop colors color U hU members seen wl hwl) ∧
      members ⊆ floodLoop colors color U hU members seen wl hwl) ?_ ?_ ?_ ?_
  · -- empty worklist: the loop returns `members`
    intro members seen hwl _ inv1 inv2 inv3 inv4 inv5
    rw [floodLoop]
    refine ⟨inv1, ?_, ?_, Finset.Subset.refl members⟩
    · rcases inv4 with h | h
      · exact h
      · exact absurd h (List.not_mem_nil q)
    · intro m hm n hn hcn
      rcases inv5 m hm n hn hcn with h | h
      · exact h
      · exact absurd h (List.not_mem_nil n)
  · -- the popped point has the region's color
    intro members seen y rest hwl _ hy ih inv1 inv2 inv3 inv4 inv5
    have hyReach : ReachColor colors color q y := inv2 y (List.mem_cons_self y rest) hy
    have inv1' : ∀ m ∈ insert y members,
        ReachColor colors color q m ∧ colorsGet colors m = some color := by
      intro m hm
      rcases Finset.mem_insert.mp hm with rfl | hm
      · exact ⟨hyReach, hy⟩
      · exact inv1 m hm
    have inv2' : ∀ x ∈ ((neighborsList y).filter (fun n => n ∉ seen)).reverse ++ rest,
        colorsGet colors x = some color → ReachColor colors color q x := by
      intro x hx hcx
      rcases List.mem_append.mp hx with hx | hx
      · exact Relation.ReflTransGen.tail hyReach
          ⟨List.mem_of_mem_filter (List.mem_reverse.mp hx), hcx⟩
      · exact inv2 x (List.mem_cons_of_mem _ hx) hcx
    have inv3' : ∀ x ∈ (if ((neighborsList y).filter (fun n => n ∉ seen)).isEmpty = true
        then seen else insert y seen), x ∈ insert y members ∨ x = q := by
      intro x hx
      by_cases h2 : ((neighborsList y).filter (fun n => n ∉ seen)).isEmpty = true
      · rw [if_pos h2] at hx
        rcases inv3 x hx with h | h
        · exact Or.inl (Finset.mem_insert_of_mem h)
        · exact Or.inr h
      · rw [if_neg h2] at hx
        rcases Finset.mem_insert.mp hx with rfl | hx
        · exact Or.inl (Finset.mem_insert_self x members)
        · rcases inv3 x hx with h | h
          · exact Or.inl (Finset.mem_insert_of_mem h)
          · exact Or.inr h
    have inv4' : q ∈ insert y members ∨
        q ∈ ((neighborsList y).filter (fun n => n ∉ seen)).reverse ++ rest := by
      rcases inv4 with h | h
      · exact Or.inl (Finset.mem_insert_of_mem h)
      · rcases List.mem_cons.mp h with rfl | h
        · exact Or.inl (Finset.mem_insert_self q members)
        · exact Or.inr (List.mem_append.mpr (Or.inr h))
    have inv5' : ∀ m ∈ insert y members, ∀ n ∈ neighborsList m,
        colorsGet colors n = some color →
        n ∈ insert y members ∨
          n ∈ ((neighborsList y).filter (fun n => n ∉ seen)).reverse ++ rest := by
      intro m hm n hn hcn
      rcases Finset.mem_insert.mp hm with rfl | hm
      · by_cases hns : n ∈ seen
        · rcases inv3 n hns with h | rfl
          · exact Or.inl (Finset.mem_insert_of_mem h)
          · rcases inv4 with h | h
            · exact Or.inl (Finset.mem_insert_of_mem h)
            · rcases List.mem_cons.mp h with rfl | h
              · exact absurd hn (not_mem_neighborsList_self _)
              · exact Or.inr (List.mem_append.mpr (Or.inr h))
        · refine Or.inr (List.mem_append.mpr (Or.inl ?_))
          rw [List.mem_reverse]
          exact List.mem_filter.mpr ⟨hn, by simpa using hns⟩
      · rcases inv5 m hm n hn hcn with h | h
        · exact Or.inl (Finset.mem_insert_of_mem h)
        · rcases List.mem_cons.mp h with rfl | h
          · exact Or.inl (Finset.mem_insert_self n members)
          · exact Or.inr (List.mem_append.mpr (Or.inr h))
    have hrec := ih inv1' inv2' inv3' inv4' inv5'
    rw [floodLoop_cons_some colors color U hU members seen y rest hwl color hy, if_pos rfl]
    exact ⟨hrec.1, hrec.2.1, hrec.2.2.1,
      fun m hm => hrec.2.2.2 (Finset.mem_insert_of_mem hm)⟩
  · -- the popped point has a different color
    intro members seen y rest hwl c hyc hne _ ih inv1 inv2 inv3 inv4 inv5
    have hqy : q ≠ y := by
      intro h
      rw [h] at hq
      exact hne (Option.some.inj (hyc.symm.trans hq))
    have hrec := ih inv1 (fun x hx hcx => inv2 x (List.mem_cons_of_mem _ hx) hcx) inv3
      (by
        rcases inv4 with h | h
        · exact Or.inl h
        · rcases List.mem_cons.mp h with rfl | h
          · exact absurd rfl hqy
          · exact Or.inr h)
      (by
        intro m hm n hn hcn
        rcases inv5 m hm n hn hcn with h | h
        · exact Or.inl h
        · rcases List.mem_cons.mp h with rfl | h
          · exact absurd (Option.some.inj (hyc.symm.trans hcn)) hne
          · exact Or.inr h)
    rw [floodLoop_cons_some colors color U hU members seen y rest hwl c hyc, if_neg hne]
    exact hrec
  · -- the popped point is off the grid
    intro members seen y rest hwl hyn _ ih inv1 inv2 inv3 inv4 inv5
    have hqy : q ≠ y := by
      intro h
      rw [h, hyn] at hq
      cases hq
    have hrec := ih inv1 (fun x hx hcx => inv2 x (List.mem_cons_of_mem _ hx) hcx) inv3
      (by
        rcases inv4 with h | h
        · exact Or.inl h
        · rcases List.mem_cons.mp h with rfl | h
          · exact absurd rfl hqy
          · exact Or.inr h)
      (by
        intro m hm n hn hcn
        rcases inv5 m hm n hn hcn with h | h
        · exact Or.inl h
        · rcases List.mem_cons.mp h with rfl | h
          · rw [hyn] at hcn
            cases hcn
          · exact Or.inr h)
    rw [floodLoop_cons_none colors color U hU members seen y rest hwl hyn]
    exact hrec

/-- `Program::get_region` from an in-bounds point: the region contains the
point, all members carry the point's color and are same-color reachable from
it, and the member set is closed under same-colored adjacency (maximality). -/
theorem getRegion_spec (colors : List (List Color)) (q : Coord) (color : Color)
    (hq : colorsGet colors q = some color) :
    ∃ r : Region, getRegion colors q = some r ∧ q ∈ r.members ∧
      (∀ m ∈ r.members, ReachColor colors color q m ∧ colorsGet colors m = some color) ∧
      (∀ m ∈ r.members, ∀ n ∈ neighborsList m, colorsGet colors n = some color →
        n ∈ r.members) := by
  have hspec := floodLoop_spec colors color (floodUniverse colors q)
    (neighbors_mem_floodUniverse colors q) q hq ∅ {q} [q]
    (fun x hx => by
      rcases List.mem_singleton.mp hx with rfl
      exact Finset.mem_insert_self x _)
    (by simp)
    (by
      intro x hx _
      rcases List.mem_singleton.mp hx with rfl
      exact Relation.ReflTransGen.refl)
    (fun x hx => Or.inr (Finset.mem_singleton.mp hx))
    (Or.inr (List.mem_singleton.mpr rfl))
    (by simp)
  refine ⟨Region.new (floodLoop colors color (floodUniverse colors q)
      (neighbors_mem_floodUniverse colors q) ∅ {q} [q]
      (fun x hx => by
        rcases List.mem_singleton.mp hx with rfl
        exact Finset.mem_insert_self x _)), ?_, hspec.2.1, hspec.1, hspec.2.2.1⟩
  unfold getRegion
  rw [hq]


theorem getRegion_some_color {colors : List (List Color)} {q : Coord} {r : Region}
    (h : getRegion colors q = some r) : ∃ c, colorsGet colors q = some c := by
  unfold getRegion at h
  rcases hc : colorsGet colors q with - | c
  · rw [hc] at h
    cases h
  · exact ⟨c, rfl⟩

theorem getRegion_ne_none {colors : List (List Color)} {q : Coord} {c : Color}
    (h : colorsGet colors q = some c) : getRegion colors q ≠ none := by
  unfold getRegion
  rw [h]
  simp

/-- The fold of `get_codels` emits exactly one entry per visited location. -/
theorem getCodelsAux_keys (colors : List (List Color)) :
    ∀ (locs : List Coord) (regions : Coord → Option Region),
      (getCodelsAux colors locs regions).map Prod.fst = locs := by
  intro locs
  induction locs with
  | nil => intro regions; rfl
  | cons l rest ih =>
      intro regions
      rcases h : regions l with - | region
      · rcases h2 : getRegion colors l with - | region2
        · simp [getCodelsAux, h, h2, ih]
        · simp [getCodelsAux, h, h2, ih]
      · simp [getCodelsAux, h, ih]

/-- Every region recorded by the fold is a `get_region` result containing its
key (the cache invariant of `get_codels`). -/
theorem getCodelsAux_mem_some (colors : List (List Color)) :
    ∀ (locs : List Coord) (regions : Coord → Option Region),
      (∀ p r, regions p = some r →
        ∃ q, getRegion colors q = some r ∧ p ∈ r.members) →
      ∀ l r, (l, some r) ∈ getCodelsAux colors locs regions →
        ∃ q, getRegion colors q = some r ∧ l ∈ r.members := by
  intro locs
  induction locs with
  | nil =>
      intro regions _ l r h
      simp [getCodelsAux] at h
  | cons l0 rest ih =>
      intro regions hmap l r h
      rcases hc : regions l0 with - | region
      · rcases h2 : getRegion colors l0 with - | region2
        · simp only [getCodelsAux, hc, h2, List.mem_cons] at h
          rcases h with h | h
          · cases h
          · exact ih regions hmap l r h
        · simp only [getCodelsAux, hc, h2, List.mem_cons] at h
          rcases h with h | h
          · rw [Prod.mk.injEq] at h
            obtain ⟨h3, h4⟩ := h
            cases Option.some.inj h4
            obtain ⟨c, hc2⟩ := getRegion_some_color h2
            obtain ⟨r3, hg3, hmem3, -, -⟩ := getRegion_spec colors l0 c hc2
            rw [h2] at hg3
            cases Option.some.inj hg3
            rw [h3]
            exact ⟨l0, h2, hmem3⟩
          · refine ih _ ?_ l r h
            intro p r2 hp
            by_cases hmem : p ∈ region2.members
            · rw [if_pos hmem] at hp
              cases Option.some.inj hp
              exact ⟨l0, h2, hmem⟩
            · rw [if_neg hmem] at hp
              exact hmap p r2 hp
      · simp only [getCodelsAux, hc, List.mem_cons] at h
        rcases h with h | h
        · rw [Prod.mk.injEq] at h
          obtain ⟨h3, h4⟩ := h
          cases Option.some.inj h4
          obtain ⟨q, hq1, hq2⟩ := hmap l0 _ hc
          rw [h3]
          exact ⟨q, hq1, hq2⟩
        · exact ih regions hmap l r h

/-- A `none` entry can only be emitted for a location whose `get_region`
panics, i.e. an out-of-bounds one. -/
theorem getCodelsAux_mem_none (colors : List (List Color)) :
    ∀ (locs : List Coord) (regions : Coord → Option Region)
      (hmap : ∀ p r, regions p = some r →
        ∃ q, getRegion colors q = some r ∧ p ∈ r.members) (l : Coord),
      (l, (none : Option Region)) ∈ getCodelsAux colors locs regions →
      getRegion colors l = none := by
  intro locs
  induction locs with
  | nil =>
      intro regions _ l h
      simp [getCodelsAux] at h
  | cons l0 rest ih =>
      intro regions hmap l h
      rcases hc : regions l0 with - | region
      · rcases h2 : getRegion colors l0 with - | region2
        · simp only [getCodelsAux, hc, h2, List.mem_cons] at h
          rcases h with h | h
          · rw [Prod.mk.injEq] at h
            rw [h.1]
            exact h2
          · exact ih regions hmap l h
        · simp only [getCodelsAux, hc, h2, List.mem_cons] at h
          rcases h with h | h
          · rw [Prod.mk.injEq] at h
            cases h.2
          · refine ih _ ?_ l h
            intro p r2 hp
            by_cases hmem : p ∈ region2.members
            · rw [if_pos hmem] at hp
              cases Option.some.inj hp
              exact ⟨l0, h2, hmem⟩
            · rw [if_neg hmem] at hp
              exact hmap p r2 hp
      · simp only [getCodelsAux, hc, List.mem_cons] at h
        rcases h with h | h
        · rw [Prod.mk.injEq] at h
          cases h.2
        · exact ih regions hmap l h

theorem mem_rowMajorCoords {rows cols : Nat} {p : Coord} :
    p ∈ rowMajorCoords rows cols ↔ p.1 < rows ∧ p.2 < cols := by
  constructor
  · intro h
    simp only [rowMajorCoords, List.mem_flatten, List.mem_map, List.mem_range] at h
    obtain ⟨lrow, ⟨row, hrow, rfl⟩, hp⟩ := h
    obtain ⟨col, hcol, rfl⟩ := List.mem_map.mp hp
    exact ⟨hrow, List.mem_range.mp hcol⟩
  · intro ⟨hr, hc⟩
    simp only [rowMajorCoords, List.mem_flatten, List.mem_map, List.mem_range]
    exact ⟨(List.range cols).map (fun col => (p.1, col)), ⟨p.1, hr, rfl⟩,
      List.mem_map.mpr ⟨p.2, List.mem_range.mpr hc, by rw [Prod.mk.eta]⟩⟩

/-- `Program::region_at` of an in-bounds point is a `get_region` region that
contains the point. -/
theorem regionAt_spec (p : Program) (point : Coord)
    (hin : point ∈ rowMajorCoords p.rows p.cols)
    (hbound : (colorsGet p.colors point).isSome = true) :
    ∃ r, p.regionAt point = some r ∧
      ∃ q, getRegion p.colors q = some r ∧ point ∈ r.members := by
  have hkeys := getCodelsAux_keys p.colors (rowMajorCoords p.rows p.cols)
    (fun _ => none)
  have hmem : ∃ e, e ∈ Program.points p ∧ (fun e => decide (e.1 = point)) e = true := by
    have : point ∈ (Program.points p).map Prod.fst := by
      rw [Program.points, hkeys]
      exact hin
    obtain ⟨e, he, he2⟩ := List.mem_map.mp this
    exact ⟨e, he, by simp [he2]⟩
  have hfind : ((Program.points p).find? (fun e => decide (e.1 = point))).isSome :=
    List.find?_isSome.mpr hmem
  rcases he : (Program.points p).find? (fun e => decide (e.1 = point)) with - | e
  · rw [he] at hfind
    cases hfind
  · have hkey : e.1 = point := by simpa using List.find?_some he
    have hel : e ∈ Program.points p := List.mem_of_find?_eq_some he
    rcases hv : e.2 with - | r
    · exfalso
      have : (point, (none : Option Region)) ∈ Program.points p := by
        rw [← hkey, ← hv]
        exact hel
      have hnone := getCodelsAux_mem_none p.colors (rowMajorCoords p.rows p.cols)
        (fun _ => none) (fun p r h => by cases h) point this
      obtain ⟨c, hc⟩ := Option.isSome_iff_exists.mp hbound
      exact getRegion_ne_none hc hnone
    · refine ⟨r, ?_, ?_⟩
      · rw [Program.regionAt, he, Option.some_bind, hv]
      · have : (point, some r) ∈ Program.points p := by
          rw [← hkey, ← hv]
          exact hel
        exact getCodelsAux_mem_some p.colors (rowMajorCoords p.rows p.cols)
          (fun _ => none) (fun p r h => by cases h) point r this

/-! ## Claims about the commands -/


/-- C8: after loading any (rectangular) program, the region looked up at any
in-bounds point contains the point, all of its members carry the point's color,
the member set is one 4-connected component (any two members are connected
inside it, and it is closed under same-colored adjacency, i.e. maximal). -/
theorem region_at_point_spec (colors : List (List Color)) (rows cols : Nat)
    (hrows : colors.length = rows) (hrect : ∀ row ∈ colors, row.length = cols)
    (point : Coord) (h1 : point.1 < rows) (h2 : point.2 < cols) :
    ∃ r : Region, (Program.mk colors rows cols).regionAt point = some r ∧
      point ∈ r.members ∧
      (∀ m ∈ r.members, colorsGet colors m = colorsGet colors point) ∧
      (∀ a ∈ r.members, ∀ b ∈ r.members, ConnectedIn r.members a b) ∧
      (∀ m ∈ r.members, ∀ n ∈ neighborsList m,
        colorsGet colors n = colorsGet colors point → n ∈ r.members) := by
  obtain ⟨row, hrow⟩ : ∃ row, colors[point.1]? = some row :=
    ⟨_, List.getElem?_eq_getElem (by omega)⟩
  have hrowmem : row ∈ colors := by
    have := (List.getElem?_eq_some_iff.mp hrow).2
    rw [← this]
    exact List.getElem_mem _
  obtain ⟨c0, hc0⟩ : ∃ c0, colorsGet colors point = some c0 := by
    have hlt : point.2 < row.length := by
      rw [hrect row hrowmem]
      omega
    refine ⟨row[point.2], ?_⟩
    rw [colorsGet, hrow, Option.some_bind]
    exact List.getElem?_eq_getElem hlt
  obtain ⟨r, hra, q, hgr, hpmem⟩ :=
    regionAt_spec (Program.mk colors rows cols) point
      (mem_rowMajorCoords.mpr ⟨h1, h2⟩) (by rw [hc0]; rfl)
  obtain ⟨cq, hcq⟩ := getRegion_some_color hgr
  obtain ⟨r2, hgr2, hqmem, hall, hclosed⟩ := getRegion_spec colors q cq hcq
  rw [hgr] at hgr2
  cases Option.some.inj hgr2
  have hpcol : colorsGet colors point = some cq := (hall point hpmem).2
  have hc0cq : c0 = cq := Option.some.inj (hc0.symm.trans hpcol)
  refine ⟨r, hra, hpmem, ?_, ?_, ?_⟩
  · intro m hm
    rw [(hall m hm).2, hpcol]
  · intro a ha b hb
    have hqa := connectedIn_of_reachColor hqmem hclosed a (hall a ha).1
    have hqb := connectedIn_of_reachColor hqmem hclosed b (hall b hb).1
    exact Relation.ReflTransGen.trans (connectedIn_symm hqmem hqa) hqb
  · intro m hm n hn hcn
    rw [hpcol] at hcn
    exact hclosed m hm n hn hcn

/-- C8 witness: the 2-by-2 program of the Rust unit test (three white codels in
an L, one black) at the top-left point. -/
theorem region_at_point_spec_witness :
    ∃ r : Region,
      (Program.mk [[Color.white, Color.white], [Color.white, Color.black]] 2 2).regionAt
          (0, 0) = some r ∧
      (0, 0) ∈ r.members ∧
      (∀ m ∈ r.members,
        colorsGet [[Color.white, Color.white], [Color.white, Color.black]] m =
          colorsGet [[Color.white, Color.white], [Color.white, Color.black]] (0, 0)) ∧
      (∀ a ∈ r.members, ∀ b ∈ r.members, ConnectedIn r.members a b) ∧
      (∀ m ∈ r.members, ∀ n ∈ neighborsList m,
        colorsGet [[Color.white, Color.white], [Color.white, Color.black]] n =
          colorsGet [[Color.white, Color.white], [Color.white, Color.black]] (0, 0) →
          n ∈ r.members) :=
  region_at_point_spec [[Color.white, Color.white], [Color.white, Color.black]] 2 2
    rfl (by decide) (0, 0) (by decide) (by decide)


theorem getRegion_size {colors : List (List Color)} {q : Coord} {r : Region}
    (h : getRegion colors q = some r) : r.size = r.members.card := by
  unfold getRegion at h
  rcases hc : colorsGet colors q with - | c
  · rw [hc] at h
    cases h
  · simp only [hc] at h
    rw [← Option.some.inj h]
    rfl

/-- C4: on the U-shaped block
`[[R, R, R], [R, black, R]]` (R = red), the block of `(1, 0)` also contains
`(1, 2)` in row 1, so `Region::edge` from `(1, 0)` rightwards is `(1, 2)`; but
the stepping engine's `disjoint_edge_coordinate` stops at the end of the first
contiguous run, `(1, 0)` itself — the engine's edge is NOT `Region::edge`. -/
theorem disjoint_edge_ignores_disjoint_segments :
    getRegion [[Color.color 0 1, Color.color 0 1, Color.color 0 1],
               [Color.color 0 1, Color.black, Color.color 0 1]] (1, 0) =
      some (Region.new {(0, 0), (0, 1), (0, 2), (1, 0), (1, 2)}) ∧
    ((1, 0) : Coord) ∈
      (Region.new {(0, 0), (0, 1), (0, 2), (1, 0), (1, 2)}).members ∧
    disjointEdgeCoordinate
      (Program.mk [[Color.color 0 1, Color.color 0 1, Color.color 0 1],
                   [Color.color 0 1, Color.black, Color.color 0 1]] 2 3)
      (1, 0) Direction.right = (1, 0) ∧
    (Region.new {(0, 0), (0, 1), (0, 2), (1, 0), (1, 2)}).edge (1, 0)
      Direction.right = some (1, 2) ∧
    ((1, 0) : Coord) ≠ (1, 2) := by
  obtain ⟨r, hgr, hmem, hall, hclosed⟩ := getRegion_spec
    [[Color.color 0 1, Color.color 0 1, Color.color 0 1],
     [Color.color 0 1, Color.black, Color.color 0 1]] (1, 0) (Color.color 0 1) rfl
  have hsub : r.members ⊆ ({(0, 0), (0, 1), (0, 2), (1, 0), (1, 2)} : Finset Coord) :=
    fun m hm => reachColor_subset (by decide) (by decide) m (hall m hm).1
  have h00 : ((0, 0) : Coord) ∈ r.members := hclosed (1, 0) hmem (0, 0) (by decide) (by decide)
  have h01 : ((0, 1) : Coord) ∈ r.members := hclosed (0, 0) h00 (0, 1) (by decide) (by decide)
  have h02 : ((0, 2) : Coord) ∈ r.members := hclosed (0, 1) h01 (0, 2) (by decide) (by decide)
  have h12 : ((1, 2) : Coord) ∈ r.members := hclosed (0, 2) h02 (1, 2) (by decide) (by decide)
  have hsup : ({(0, 0), (0, 1), (0, 2), (1, 0), (1, 2)} : Finset Coord) ⊆ r.members := by
    intro x hx
    fin_cases hx <;> assumption
  have hmembers : r.members = {(0, 0), (0, 1), (0, 2), (1, 0), (1, 2)} :=
    Finset.Subset.antisymm hsub hsup
  have hsize := getRegion_size hgr
  have hr : r = Region.new {(0, 0), (0, 1), (0, 2), (1, 0), (1, 2)} := by
    rcases r with ⟨M, sz⟩
    simp only at hmembers hsize
    subst hmembers
    subst hsize
    rfl
  have hedge : (Region.new
      ({(0, 0), (0, 1), (0, 2), (1, 0), (1, 2)} : Finset Coord)).edge (1, 0)
      Direction.right = some (1, 2) := by
    have hF : ((Region.new
        ({(0, 0), (0, 1), (0, 2), (1, 0), (1, 2)} : Finset Coord)).members.filter
        (fun p => p.1 = 1)).image Prod.snd = ({0, 2} : Finset Nat) := by decide
    have hsort : (({0, 2} : Finset Nat)).sort (· ≤ ·) = [0, 2] := by
      have ha : ∀ b ∈ ({2} : Finset Nat), (fun x1 x2 : Nat => x1 ≤ x2) 0 b := by decide
      have hb : (0 : Nat) ∉ ({2} : Finset Nat) := by decide
      rw [@Finset.sort_insert Nat (fun x1 x2 : Nat => x1 ≤ x2) _ _ _ _ _ 0 {2} ha hb,
        Finset.sort_singleton]
    simp only [Region.edge, Region.codelsInRow, hF, hsort]
    rfl
  refine ⟨by rw [← hr]; exact hgr, by decide, ?_, hedge, by decide⟩
  simp [disjointEdgeCoordinate, edgeCoordinate, Program.nextPoint, Program.colorAt]
  decide

/-- C1: the spec claims `modulo` pushes the remainder with the sign of the
divisor, so that `(-7) mod 3 = 2` and `7 mod (-3) = -2` (the doc comment on
`modulo` in command.rs claims the same); the code uses Rust `%`, the truncated
remainder with the sign of the dividend, and pushes `-1` and `1` instead. -/
theorem modulo_uses_truncated_remainder :
    execute { State.new [] with stack := [3, -7] } 2 1 0 =
      some { State.new [] with stack := [-1] } ∧
    execute { State.new [] with stack := [-3, 7] } 2 1 0 =
      some { State.new [] with stack := [1] } ∧
    ((-1 : Int) ≠ 2 ∧ (1 : Int) ≠ -2) := by
  refine ⟨rfl, rfl, by decide, by decide⟩

/-- C2 (corrected): every command with a failed precondition (stack underflow,
zero divisor, invalid roll depth) leaves the stack unchanged — except
`out_char`, which pops its operand unconditionally: on a value that is not a
Unicode scalar it writes nothing but the popped value is gone.  (`in_number` and
`in_char` are `todo!()` and panic instead; see C3.) -/
theorem command_precondition_atomicity (s : State) :
    (s.stack.length < 2 →
      add s = s ∧ subtract s = s ∧ multiply s = s ∧ divide s = s ∧ modulo s = s ∧
      greater s = s ∧ roll s = some s) ∧
    (∀ two rest, s.stack = 0 :: two :: rest → divide s = s ∧ modulo s = s) ∧
    (∀ turns depth rest, s.stack = turns :: depth :: rest →
      (depth < 0 ∨ (rest.length : Int) < depth) → roll s = some s) ∧
    (s.stack = [] → pop s = s ∧ not s = s ∧ pointer s = s ∧ switch s = s ∧
      duplicate s = s ∧ outNumber s = s ∧ outChar s = s) ∧
    (∀ top rest, s.stack = top :: rest → ¬ isUnicodeScalar top →
      outChar s = { s with stack := rest }) := by
  refine ⟨?_, ?_, ?_, ?_, ?_⟩
  · intro hlen
    match hs : s.stack, hlen with
    | [], _ =>
        refine ⟨?_, ?_, ?_, ?_, ?_, ?_, ?_⟩ <;> simp [add, subtract, multiply, divide,
          modulo, greater, roll, hs]
    | [x], _ =>
        refine ⟨?_, ?_, ?_, ?_, ?_, ?_, ?_⟩ <;> simp [add, subtract, multiply, divide,
          modulo, greater, roll, hs]
    | _ :: _ :: _, hlen => exact absurd hlen (by simp)
  · intro two rest hs
    constructor <;> simp [divide, modulo, hs]
  · intro turns depth rest hs hbad
    have : ¬ (0 ≤ depth ∧ depth.toNat ≤ rest.length) := by omega
    simp only [roll, hs, if_neg this]
  · intro hs
    refine ⟨?_, ?_, ?_, ?_, ?_, ?_, ?_⟩ <;> simp [pop, not, pointer, switch,
      duplicate, outNumber, outChar, hs]
  · intro top rest hs hbad
    simp only [outChar, hs, if_neg hbad]

/-- C2 counterexample: `out_char` on the single stack value `-1` (not a Unicode
scalar value) empties the stack, so the claimed roll-back of the pop does not
happen in the code. -/
theorem outChar_does_not_restore_pop :
    (outChar { State.new [] with stack := [-1] }).stack = [] ∧
    (outChar { State.new [] with stack := [-1] }).stack ≠ [-1] ∧
    ¬ isUnicodeScalar (-1) := by
  refine ⟨rfl, by decide, by decide⟩

/-- C3: `in_char` and `in_number` are `todo!()` in command.rs.  Dispatching
either of them — here from the initial state, whose input buffer is empty —
panics (modelled by `none`) instead of being the no-op the spec requires. -/
theorem in_commands_panic_instead_of_noop :
    (State.new []).stdin = [] ∧
    execute (State.new []) 5 0 0 = none ∧
    execute (State.new []) 4 2 0 = none :=
  ⟨rfl, rfl, rfl⟩

/-- C9 (amended): `roll(depth = d, turns = t)` followed by
`roll(depth = d, turns = -t)` restores the stack below the two operands,
provided the rolls are well-defined (`0 ≤ d` and `d` at most the stack size
after the operand pops) and additionally `1 ≤ d` or `t = 0` — for `d = 0` and
`t ≠ 0` the loop body's `Vec` operations panic (see the counterexample). -/
theorem roll_then_inverse_roll_restores (s : State) (t d : Int) (rest : List Int)
    (hs : s.stack = t :: d :: rest) (hd0 : 0 ≤ d) (hdle : d.toNat ≤ rest.length)
    (hok : 1 ≤ d ∨ t = 0) :
    ∃ mid, roll s = some { s with stack := mid } ∧ mid.length = rest.length ∧
      roll { s with stack := (-t) :: d :: mid } = some { s with stack := rest } := by
  have hguard : 0 ≤ d ∧ d.toNat ≤ rest.length := ⟨hd0, hdle⟩
  rcases eq_or_ne t 0 with ht0 | ht0
  · subst ht0
    refine ⟨rest, ?_, rfl, ?_⟩
    · simp [roll, hs, hguard, iterateOption]
    · simp [roll, hguard, iterateOption]
  · have hd1 : 1 ≤ d := hok.resolve_right ht0
    have hd1n : 1 ≤ d.toNat := by omega
    rcases le_or_lt 0 t with htpos | htneg
    · obtain ⟨mid, hfwd, hmlen, hbwd⟩ :=
        iterateOption_inverse (rollBuryOnce rest.length d.toNat)
          (rollDigOnce rest.length d.toNat) (fun l => l.length = rest.length)
          (fun l hl => rollBuryOnce_some rest.length d.toNat hd1n hdle l hl)
          t.toNat rest rfl
      refine ⟨mid, ?_, hmlen, ?_⟩
      · simp only [roll, hs, if_pos hguard, if_pos htpos, hfwd, Option.map_some']
      · have hguard2 : 0 ≤ d ∧ d.toNat ≤ mid.length := ⟨hd0, by omega⟩
        have hnotpos : ¬ (0 ≤ -t) := by omega
        simp only [roll, if_pos hguard2, if_pos hguard, if_neg hnotpos, neg_neg, hmlen, hbwd,
          Option.map_some']
    · obtain ⟨mid, hfwd, hmlen, hbwd⟩ :=
        iterateOption_inverse (rollDigOnce rest.length d.toNat)
          (rollBuryOnce rest.length d.toNat) (fun l => l.length = rest.length)
          (fun l hl => rollDigOnce_some rest.length d.toNat hd1n hdle l hl)
          (-t).toNat rest rfl
      refine ⟨mid, ?_, hmlen, ?_⟩
      · have hnotpos : ¬ (0 ≤ t) := by omega
        simp only [roll, hs, if_pos hguard, if_neg hnotpos, hfwd, Option.map_some']
      · have hguard2 : 0 ≤ d ∧ d.toNat ≤ mid.length := ⟨hd0, by omega⟩
        simp only [roll, if_pos hguard2, if_pos hguard, if_pos (by omega : (0 : Int) ≤ -t), hmlen,
          hbwd, Option.map_some']

/-- C9 witness: the Rust unit-test stack `[1,2,3,4,5,6]` (bottom first) with
`depth = 3`, `turns = 2`, then rolled back with `turns = -2`. -/
theorem roll_then_inverse_roll_restores_witness :
    ∃ mid,
      roll { State.new [] with stack := [2, 3, 6, 5, 4, 3, 2, 1] } =
        some { { State.new [] with stack := [2, 3, 6, 5, 4, 3, 2, 1] } with stack := mid } ∧
      mid.length = ([6, 5, 4, 3, 2, 1] : List Int).length ∧
      roll { { State.new [] with stack := [2, 3, 6, 5, 4, 3, 2, 1] } with
          stack := (-2) :: 3 :: mid } =
        some { { State.new [] with stack := [2, 3, 6, 5, 4, 3, 2, 1] } with
          stack := [6, 5, 4, 3, 2, 1] } :=
  roll_then_inverse_roll_restores _ 2 3 [6, 5, 4, 3, 2, 1] rfl (by decide) (by decide)
    (Or.inl (by decide))

/-- C9 counterexample: with `depth = 0` and `turns = 1` both operand checks
pass (`0 ≤ 0 ≤ 1`), yet `roll` panics inside the loop (`Vec::insert` past the
end), so the claimed round trip does not even complete. -/
theorem roll_depth_zero_panics :
    (0 : Int) ≤ 0 ∧ (0 : Int).toNat ≤ ([5] : List Int).length ∧
    ¬ ∃ mid, roll { State.new [] with stack := [1, 0, 5] } =
        some { { State.new [] with stack := [1, 0, 5] } with stack := mid } ∧
      roll { { State.new [] with stack := [1, 0, 5] } with stack := (-1) :: 0 :: mid } =
        some { { State.new [] with stack := [1, 0, 5] } with stack := [5] } := by
  refine ⟨by decide, by decide, ?_⟩
  rintro ⟨mid, h1, -⟩
  rw [show roll { State.new [] with stack := [1, 0, 5] } = none from rfl] at h1
  exact Option.noConfusion h1


/-- Closed form of iterated stalls from a zero counter: failure `k` has already
rotated the pointer direction `k / 2` times and the chooser `(k + 1) / 2`
times. -/
theorem stallStep_iterate (s : State) (h0 : s.termination_counter = 0) :
    ∀ k, stallStep^[k] s =
      { s with pointer_direction := Direction.next^[k / 2] s.pointer_direction,
               chooser_direction := Chooser.next^[(k + 1) / 2] s.chooser_direction,
               termination_counter := k } := by
  intro k
  induction k with
  | zero =>
      cases s
      simp_all [Function.iterate_zero]
  | succ k ih =>
      rw [Function.iterate_succ_apply', ih]
      unfold stallStep
      by_cases hk : k % 2 = 0
      · rw [if_pos hk]
        have e1 : (k + 1) / 2 = k / 2 := by omega
        have e2 : (k + 1 + 1) / 2 = k / 2 + 1 := by omega
        simp only [e1, e2, Function.iterate_succ_apply']
      · rw [if_neg hk]
        have e1 : (k + 1) / 2 = k / 2 + 1 := by omega
        have e2 : (k + 1 + 1) / 2 = k / 2 + 1 := by omega
        simp only [e1, e2, Function.iterate_succ_apply']

/-! ## Claims about the stepping engine -/

/-- C5: every blocked advance goes through `stallStep`; counting failures from a
zero counter, failure `k` toggles the chooser when `k` is even and rotates the
pointer direction clockwise when `k` is odd, and the eight
(direction, chooser) combinations are all visited within the first eight
failures. -/
theorem retry_rotation_pattern (p : Program) (s : State)
    (h0 : s.termination_counter = 0) :
    (∀ s2 : State, nextCoordinates p s2 = none → advance p s2 = some (stallStep s2)) ∧
    (∀ k, (stallStep^[k] s).termination_counter = k) ∧
    (∀ k, k % 2 = 0 → stallStep (stallStep^[k] s) =
      { stallStep^[k] s with
        chooser_direction := (stallStep^[k] s).chooser_direction.next,
        termination_counter := k + 1 }) ∧
    (∀ k, k % 2 = 1 → stallStep (stallStep^[k] s) =
      { stallStep^[k] s with
        pointer_direction := (stallStep^[k] s).pointer_direction.next,
        termination_counter := k + 1 }) ∧
    (∀ dc : Direction × Chooser, ∃ k, k < 8 ∧
      ((stallStep^[k] s).pointer_direction, (stallStep^[k] s).chooser_direction) = dc) := by
  refine ⟨?_, ?_, ?_, ?_, ?_⟩
  · intro s2 h
    unfold advance
    rw [h]
  · intro k
    rw [stallStep_iterate s h0 k]
  · intro k hk
    rw [stallStep_iterate s h0 k]
    unfold stallStep
    rw [if_pos (by simpa using hk)]
  · intro k hk
    rw [stallStep_iterate s h0 k]
    unfold stallStep
    rw [if_neg (show ¬ k % 2 = 0 by omega)]
  · intro dc
    obtain ⟨d2, c2⟩ := dc
    simp only [stallStep_iterate s h0]
    cases hdd : s.pointer_direction <;> cases hcc : s.chooser_direction <;>
      cases d2 <;> cases c2 <;> decide

/-- C5 witness: from the initial state, the first failure toggles the chooser,
and the eight combinations are all reached. -/
theorem retry_rotation_pattern_witness :
    (stallStep (State.new []) =
      { State.new [] with
        chooser_direction := (State.new []).chooser_direction.next,
        termination_counter := 1 }) ∧
    (∃ k, k < 8 ∧
      ((stallStep^[k] (State.new [])).pointer_direction,
       (stallStep^[k] (State.new [])).chooser_direction) =
        (Direction.left, Chooser.right)) := by
  have h := retry_rotation_pattern ⟨[[Color.white]], 1, 1⟩ (State.new []) rfl
  refine ⟨?_, h.2.2.2.2 (Direction.left, Chooser.right)⟩
  have h2 := h.2.2.1 0 rfl
  simpa using h2

/-- C6: in every state the run loop can reach, the termination counter is at
most 8; a successful advance resets it to 0 and a failed advance increments it
by 1; and the loop guard `termination_counter < 8` fails exactly when the
counter is 8. -/
theorem termination_counter_invariant (p : Program) (stdin : List Char) (s : State)
    (hs : Reachable p stdin s) :
    s.termination_counter ≤ 8 ∧
    (¬ s.termination_counter < 8 ↔ s.termination_counter = 8) ∧
    (∀ s2 : State, advance p s = some s2 →
      (nextCoordinates p s ≠ none → s2.termination_counter = 0) ∧
      (nextCoordinates p s = none →
        s2.termination_counter = s.termination_counter + 1)) := by
  have hbound : s.termination_counter ≤ 8 := by
    induction hs with
    | init => simp [State.new]
    | step hr hlt hadv ih =>
        rcases advance_some_cases _ hadv with ⟨-, rfl⟩ | ⟨loc, c, pw, -, -, hcnt⟩
        · rw [stallStep_termination_counter]
          omega
        · omega
  refine ⟨hbound, by omega, ?_⟩
  intro s2 hadv
  rcases advance_some_cases _ hadv with ⟨hnone, rfl⟩ | ⟨loc, c, pw, hsome, -, hcnt⟩
  · exact ⟨fun hne => absurd hnone hne, fun _ => stallStep_termination_counter s⟩
  · exact ⟨fun _ => hcnt, fun hnone => absurd hsome (by simp [hnone])⟩

/-- C6 witness: the invariant holds at the initial state. -/
theorem termination_counter_invariant_witness :
    (State.new []).termination_counter ≤ 8 ∧
    (¬ (State.new []).termination_counter < 8 ↔
      (State.new []).termination_counter = 8) :=
  let h := termination_counter_invariant ⟨[[Color.white]], 1, 1⟩ [] (State.new [])
    Reachable.init
  ⟨h.1, h.2.1⟩

/-- C7: when a step reached its new position through white, or leaves a white
codel, the dispatched hue/lightness change is `(0, 0)`: no command runs, so the
stack, direction pointer and chooser are untouched and no block size is pushed;
only the pointer location and the termination counter change. -/
theorem white_transition_is_nop (p : Program) (s : State) (next : Coord) (c : Color)
    (pw : Bool) (h : nextCoordinates p s = some (next, c, pw))
    (hw : pw = true ∨ p.colorAt s.pointer_location = Color.white) :
    advance p s = some { s with pointer_location := next, termination_counter := 0 } := by
  unfold advance
  have hcond : p.colorAt s.pointer_location = Color.white ∨ pw = true := hw.symm
  simp only [h, if_pos hcond]
  rfl

/-- C7 witness: a 1-by-3 program `red, white, blue`; the first step slides
through the white codel into the blue one and dispatches nothing. -/
theorem white_transition_is_nop_witness :
    advance ⟨[[Color.color 0 1, Color.white, Color.color 4 1]], 1, 3⟩ (State.new []) =
      some { State.new [] with pointer_location := (0, 2), termination_counter := 0 } := by
  apply white_transition_is_nop _ _ _ (Color.color 4 1) true _ (Or.inl rfl)
  simp [nextCoordinates, disjointEdgeCoordinate, edgeCoordinate, Program.nextPoint,
    Program.colorAt, State.new, Direction.withChooser, Direction.previous, Direction.next]

/-- C10 (amended): provided the top-left codel is not black, the pointer never
rests on a black codel in any reachable state, so whenever `advance` obtains a
new position without passing white and the current codel is not white, the
current codel is `Colored` and `compare(...).unwrap()` cannot panic. -/
theorem compare_unwrap_never_panics (p : Program) (stdin : List Char) (s : State)
    (h0 : p.colorAt (0, 0) ≠ Color.black) (hs : Reachable p stdin s)
    (loc : Coord) (c : Color) (h : nextCoordinates p s = some (loc, c, false))
    (hw : p.colorAt s.pointer_location ≠ Color.white) :
    p.colorAt s.pointer_location ≠ Color.black ∧
    (∃ hue lightness, p.colorAt s.pointer_location = Color.color hue lightness) ∧
    ((p.colorAt s.pointer_location).compare c).isSome = true := by
  have hnb : p.colorAt s.pointer_location ≠ Color.black :=
    reachable_pointer_not_black p stdin h0 s hs
  obtain ⟨-, -, hcol⟩ := nextCoordinates_some_color h
  obtain ⟨hue2, lightness2, hc2⟩ := hcol rfl
  refine ⟨hnb, ?_, ?_⟩ <;>
    rcases hcur : p.colorAt s.pointer_location with ⟨hue, lightness⟩ | - | -
  · exact ⟨hue, lightness, rfl⟩
  · exact absurd hcur hnb
  · exact absurd hcur hw
  · rw [hc2]
    rfl
  · exact absurd hcur hnb
  · exact absurd hcur hw

/-- C10 witness: a 1-by-2 red/green program; the initial state steps right into
the green codel and the comparison succeeds. -/
theorem compare_unwrap_never_panics_witness :
    (⟨[[Color.color 0 1, Color.color 2 1]], 1, 2⟩ : Program).colorAt
        (State.new []).pointer_location ≠ Color.black ∧
    (∃ hue lightness,
      (⟨[[Color.color 0 1, Color.color 2 1]], 1, 2⟩ : Program).colorAt
        (State.new []).pointer_location = Color.color hue lightness) ∧
    (((⟨[[Color.color 0 1, Color.color 2 1]], 1, 2⟩ : Program).colorAt
        (State.new []).pointer_location).compare (Color.color 2 1)).isSome = true := by
  apply compare_unwrap_never_panics _ [] _ (by decide) Reachable.init (0, 1)
  · simp [nextCoordinates, disjointEdgeCoordinate, edgeCoordinate, Program.nextPoint,
      Program.colorAt, State.new, Direction.withChooser, Direction.previous,
      Direction.next]
  · decide

/-- C10 counterexample: a program whose top-left codel is black.  The very first
advance obtains a colored new position without passing white while the pointer
rests on the black start codel, and `compare(...).unwrap()` panics (`advance`
is `none`). -/
theorem black_start_panics :
    (⟨[[Color.black, Color.color 0 1]], 1, 2⟩ : Program).colorAt
        (State.new []).pointer_location = Color.black ∧
    nextCoordinates ⟨[[Color.black, Color.color 0 1]], 1, 2⟩ (State.new []) =
      some ((0, 1), Color.color 0 1, false) ∧
    advance ⟨[[Color.black, Color.color 0 1]], 1, 2⟩ (State.new []) = none := by
  refine ⟨by decide, ?_, ?_⟩ <;>
    simp [advance, nextCoordinates, disjointEdgeCoordinate, edgeCoordinate,
      Program.nextPoint, Program.colorAt, State.new, Direction.withChooser,
      Direction.previous, Direction.next, Color.compare]

/-- C2 witness: underflow leaves the one-element stack alone for `add`, and the
invalid `out_char` pops its operand. -/
theorem command_precondition_atomicity_witness :
    add { State.new [] with stack := [1] } = { State.new [] with stack := [1] } ∧
    outChar { State.new [] with stack := [-1] } =
      { { State.new [] with stack := [-1] } with stack := [] } :=
  ⟨((command_precondition_atomicity { State.new [] with stack := [1] }).1
      (by decide)).1,
    (command_precondition_atomicity { State.new [] with stack := [-1] }).2.2.2.2
      (-1) [] rfl (by decide)⟩

end Piet
